import Mathlib

/-!
Shallow embedding of the country-aggregation core of the
`worldmobilelabs-packages` service (`src/worldmobile.rs`, `src/main.rs`,
`src/config.rs`, `src/models.rs`), together with proofs of the spec's
claims about it.

JSON documents (`serde_json::Value`) are modelled by `JVal`; request
parameter maps (`HashMap<&str, String>`) by total functions
`String → Option String`; the HTTP layer by an oracle
`Nat → Params → Except WmError JVal` giving the response of the k-th
upstream call.  Numbers are modelled as `Int` (floats never matter to the
claims: every numeric access in the source goes through `as_u64`, which
is `none` on non-integers, exactly as here).
-/

/-- `serde_json::Value`: a JSON document.  Objects are association lists,
looked up by first match, which agrees with `serde_json`'s maps since
parsing collapses duplicate keys. -/
inductive JVal where
  | null : JVal
  | bool : Bool → JVal
  | num : Int → JVal
  | str : String → JVal
  | arr : List JVal → JVal
  | obj : List (String × JVal) → JVal

namespace JVal

/-- `Value::get(key)` on an object (None on every other shape). -/
def get? : JVal → String → Option JVal
  | obj fields, k => (fields.find? (fun f => f.1 == k)).map (·.2)
  | _, _ => none

/-- `Value::as_str`. -/
def asStr : JVal → Option String
  | str s => some s
  | _ => none

/-- `Value::as_array`. -/
def asArr : JVal → Option (List JVal)
  | arr xs => some xs
  | _ => none

/-- `Value::as_object` (we keep the field list). -/
def asObj : JVal → Option (List (String × JVal))
  | obj fields => some fields
  | _ => none

/-- `Value::as_u64`: the value as a `u64` when it is an integer in range. -/
def asU64 : JVal → Option Nat
  | num n => if 0 ≤ n ∧ n < 2 ^ 64 then some n.toNat else none
  | _ => none

end JVal

/-- A `(code, optional name)` candidate pair, as produced by extraction. -/
abbrev Pair := String × Option String

/-- Drop leading whitespace from a character list. -/
def trimLeft : List Char → List Char
  | [] => []
  | c :: cs => if c.isWhitespace then trimLeft cs else c :: cs

/-- `str::trim`: drop leading and trailing whitespace.  (Rust trims the
full Unicode White_Space class; the claims only ever involve ASCII
whitespace, which `Char.isWhitespace` covers.) -/
def trimS (s : String) : String :=
  String.mk ((trimLeft (trimLeft s.data).reverse).reverse)

/-- Byte-wise lexicographic `≤` on strings via their character lists; for
UTF-8 data the byte order and the codepoint order coincide, so this is
`str::cmp`'s order. -/
def leChars : List Char → List Char → Bool
  | [], _ => true
  | _ :: _, [] => false
  | a :: as, b :: bs => if a < b then true else if b < a then false else leChars as bs

/-- `push_pair` from `extract_countries`: append `(code.trim(), name.trim())`
to the accumulator when a code is present and non-empty after trimming;
otherwise leave the accumulator unchanged. -/
def push_pair (v : List Pair) (code : Option String) (name : Option String) : List Pair :=
  match code with
  | some c =>
      if trimS c = "" then v
      else v ++ [(trimS c, name.map (fun n => trimS n))]
  | none => v

/-- The ordered alias list tried for a country code. -/
def code_keys : List String :=
  ["country_code", "countryCode", "countryCodeISO", "isoCountry", "country", "code"]

/-- The ordered alias list tried for a country name. -/
def name_keys : List String :=
  ["country_name", "countryName", "name", "countryLabel", "country"]

/-- First alias whose value is present and is a string (`find_map` with
`get(k).and_then(as_str)` in the source). -/
def firstStr (fields : List (String × JVal)) (keys : List String) : Option String :=
  keys.findSome? (fun k => ((JVal.obj fields).get? k).bind JVal.asStr)

/-- Code lookup for an element of a nested country list
(`code`/`country_code`/`countryCode`/`country` chained with `or_else`). -/
def subCode (fields : List (String × JVal)) : Option String :=
  firstStr fields ["code", "country_code", "countryCode", "country"]

/-- Name lookup for an element of a nested country list. -/
def subName (fields : List (String × JVal)) : Option String :=
  firstStr fields ["name", "country_name", "countryName"]

/-- Process one element of a nested country list. -/
def subEntry (out : List Pair) (sub : JVal) : List Pair :=
  match sub.asObj with
  | some so => push_pair out (subCode so) (subName so)
  | none => out

/-- Process one nested-list key (`countries` / `supportedCountries` /
`availableCountries`) of an object. -/
def nestedList (fields : List (String × JVal)) (out : List Pair) (lk : String) : List Pair :=
  match ((JVal.obj fields).get? lk).bind JVal.asArr with
  | some a => a.foldl subEntry out
  | none => out

/-- `normalize_entry`: extract the entry's own (code, name) pair by alias
lookup, then scan the recognised nested country-list fields. -/
def normalize_entry (entry : JVal) (out : List Pair) : List Pair :=
  match entry.asObj with
  | some fields =>
      ["countries", "supportedCountries", "availableCountries"].foldl (nestedList fields)
        (push_pair out (firstStr fields code_keys) (firstStr fields name_keys))
  | none => out

/-- The raw candidate list produced from one page, before deduplication:
the `pairs` vector of `extract_countries`. -/
def collectPairs (payload : JVal) : List Pair :=
  match payload with
  | JVal.arr xs => xs.foldl (fun acc item => normalize_entry item acc) []
  | JVal.obj fields =>
      normalize_entry (JVal.obj fields)
        (["data", "packages", "items", "results"].foldl
          (fun acc k =>
            match ((JVal.obj fields).get? k).bind JVal.asArr with
            | some a => a.foldl (fun b item => normalize_entry item b) acc
            | none => acc) [])
  | _ => []

/-- One step of the deduplicating `HashMap`: `map.entry(code)
.and_modify(|v| if v.is_none() then *v = name).or_insert(name)`.
The map is represented as an association list with distinct keys; the
representation order is irrelevant because the result is sorted by code
before use, and codes are distinct. -/
def modifyStep (p q : Pair) : Pair :=
  if q.1 == p.1 && q.2 == none then (q.1, p.2) else q

def insertPair (acc : List Pair) (p : Pair) : List Pair :=
  if acc.any (fun q => q.1 == p.1) then acc.map (modifyStep p)
  else acc ++ [p]

/-- Fold the whole candidate list into the deduplicating map. -/
def dedupPairs (ps : List Pair) : List Pair :=
  ps.foldl insertPair []

/-- Key order used by `sort_by(|a,b| a.0.cmp(&b.0))`. -/
def pairLe (a b : Pair) : Prop := leChars a.1.data b.1.data = true

instance : DecidableRel pairLe := fun a b => instDecidableEqBool (leChars a.1.data b.1.data) true

/-- Sort the deduplicated pairs ascending by code.  The source uses
`sort_by`; since the keys are distinct after deduplication, every sorted
permutation is the same list, so insertion sort is a faithful model. -/
def sortPairs (ps : List Pair) : List Pair :=
  ps.insertionSort pairLe

/-- The dedup-then-sort merge that both `extract_countries` and
`get_countries` perform on a candidate list. -/
def mergePairs (ps : List Pair) : List Pair :=
  sortPairs (dedupPairs ps)

/-- `extract_countries`: collect candidates from one page, then
deduplicate and sort them. -/
def extract_countries (payload : JVal) : List Pair :=
  mergePairs (collectPairs payload)

/-! ## Pagination (`worldmobile.rs`, lines 125-189) -/

/-- Does `pat` begin `s`? -/
def begWith : List Char → List Char → Bool
  | [], _ => true
  | _ :: _, [] => false
  | p :: ps, c :: cs => p == c && begWith ps cs

/-- The suffix after the first occurrence of `pat`
(`s.find(pat)` + slicing past the match in the source). -/
def afterSub (pat : List Char) : List Char → Option (List Char)
  | [] => none
  | c :: cs =>
      if begWith pat (c :: cs) then some (List.drop pat.length (c :: cs))
      else afterSub pat cs

/-- `u32::from_str`: optional leading `+`, then decimal digits, value in
`u32` range. -/
def parseU32 (s : List Char) : Option Nat :=
  let s2 := match s with
    | '+' :: rest => rest
    | _ => s
  if s2 ≠ [] ∧ s2.all (fun c => c.isDigit) then
    let n := s2.foldl (fun acc c => acc * 10 + (c.toNat - 48)) 0
    if n < 2 ^ 32 then some n else none
  else none

/-- The `page=`-extraction applied to a `links.next` URL: text after the
first `page=` up to the next `&`, parsed as `u32`. -/
def linkPage (next_url : String) : Option Nat :=
  match afterSub ("page=".data) next_url.data with
  | some tail => parseU32 (tail.takeWhile (fun c => c != '&'))
  | none => none

/-- The meta-block advance: when `meta.total_pages` is positive and
`meta.page` (defaulting to the current page) is below it, go to
`page + 1`.  `as u32` casts are the explicit `% 2 ^ 32`. -/
def metaAdvance (payload : JVal) (current_page : Nat) : Option Nat :=
  match (payload.get? "meta").bind JVal.asObj with
  | some m =>
      if 0 < ((((JVal.obj m).get? "total_pages").bind JVal.asU64).map
            (fun x => x % 2 ^ 32)).getD 0 ∧
          ((((JVal.obj m).get? "page").bind JVal.asU64).map
            (fun x => x % 2 ^ 32)).getD current_page <
          ((((JVal.obj m).get? "total_pages").bind JVal.asU64).map
            (fun x => x % 2 ^ 32)).getD 0 then
        some (((((JVal.obj m).get? "page").bind JVal.asU64).map
          (fun x => x % 2 ^ 32)).getD current_page + 1)
      else none
  | none => none

/-- The numeric `next_page` field, cast to `u32`. -/
def nextPageField (payload : JVal) : Option Nat :=
  ((payload.get? "next_page").bind JVal.asU64).map (fun np => np % 2 ^ 32)

/-- The `links.next` entry as a string. -/
def linksNextStr (payload : JVal) : Option String :=
  ((payload.get? "links").bind (fun l => l.get? "next")).bind JVal.asStr

/-- `next_page_number`: meta `page`/`total_pages` counters, then a numeric
`next_page` field, then the `page=` query parameter of `links.next`. -/
def next_page_number (payload : JVal) (current_page : Nat) : Option Nat :=
  match metaAdvance payload current_page with
  | some p => some p
  | none =>
      match nextPageField payload with
      | some np => some np
      | none =>
          match linksNextStr payload with
          | some next_url => linkPage next_url
          | none => none

/-- Keep a string only if non-empty (`!s.is_empty()` guards in the source). -/
def nonEmptyStr (o : Option String) : Option String :=
  o.bind (fun s => if s = "" then none else some s)

/-- `next_token`: first non-empty string under
`next`/`nextToken`/`next_token`/`nextPageToken`, then `meta.next_token`,
then the whole `links.next` string. -/
def next_token (payload : JVal) : Option String :=
  match ["next", "nextToken", "next_token", "nextPageToken"].findSome?
      (fun k => nonEmptyStr ((payload.get? k).bind JVal.asStr)) with
  | some s => some s
  | none =>
      match nonEmptyStr (((payload.get? "meta").bind
          (fun m => m.get? "next_token")).bind JVal.asStr) with
      | some s => some s
      | none => nonEmptyStr (linksNextStr payload)

/-- The continuation signal of one page, as the loop body of
`fetch_all_pages` computes it: token first, then page number, else stop. -/
inductive ContinuationSignal where
  | token : String → ContinuationSignal
  | page : Nat → ContinuationSignal
  | stop : ContinuationSignal
deriving DecidableEq

def continuation (payload : JVal) (current_page : Nat) : ContinuationSignal :=
  match next_token payload with
  | some t => ContinuationSignal.token t
  | none =>
      match next_page_number payload current_page with
      | some np => ContinuationSignal.page np
      | none => ContinuationSignal.stop

/-- `WmError` (`reqwest::Error` and `StatusCode` carried as plain data). -/
inductive WmError where
  | MissingToken : WmError
  | Http : String → WmError
  | Upstream : Nat → String → WmError
  | BadJson : WmError
deriving DecidableEq

/-- `Settings` from `config.rs`. -/
structure Settings where
  base_url : String
  bearer_token : Option String
  use_stub : Bool
  http_timeout_ms : Nat
  max_pages : Nat
  default_page_size : Nat
  fail_open : Bool

/-- The request-parameter map (`HashMap<&str, String>`). -/
abbrev Params := String → Option String

def emptyP : Params := fun _ => none

/-- `HashMap::insert`: add or replace. -/
def insertP (k v : String) (m : Params) : Params :=
  fun k' => if k' = k then some v else m k'

/-- `WmClient::fetch_available_packages`.  The HTTP exchange is the oracle
`net`, indexed by how many upstream calls happened before; `stub` is the
canned `stub.json` document (its content is quantified over — the file is
not part of the sources). -/
def fetchAvailablePackages (s : Settings) (net : Nat → Params → Except WmError JVal)
    (stub : JVal) (idx : Nat) (params : Params) : Except WmError JVal :=
  if s.use_stub then Except.ok stub
  else
    match s.bearer_token with
    | none => Except.error WmError.MissingToken
    | some _ => net idx params

/-- The `for _ in 0..max_pages` loop of `fetch_all_pages`: `acc` is the
`pages` vector, `fuel` the remaining iterations. -/
def fetchLoop (fetch : Nat → Params → Except WmError JVal) :
    Nat → Params → Nat → List JVal → Nat → Except WmError (List JVal)
  | _, _, _, acc, 0 => Except.ok acc
  | idx, params, page, acc, fuel + 1 =>
      match fetch idx params with
      | Except.error e => Except.error e
      | Except.ok payload =>
          match continuation payload page with
          | ContinuationSignal.token t =>
              fetchLoop fetch (idx + 1) (insertP "next" t params) page (acc ++ [payload]) fuel
          | ContinuationSignal.page np =>
              fetchLoop fetch (idx + 1) (insertP "page" (toString np) params) np
                (acc ++ [payload]) fuel
          | ContinuationSignal.stop => Except.ok (acc ++ [payload])

/-- The parameter map seeded before the loop: `page = 1` plus the page
size hint (the given one, or the configured default). -/
def seedParams (s : Settings) (base : Params) (page_size : Option Nat) : Params :=
  insertP "page_size" (toString (page_size.getD s.default_page_size))
    (insertP "page" (toString 1) base)

/-- `fetch_all_pages`. -/
def fetch_all_pages (s : Settings) (net : Nat → Params → Except WmError JVal) (stub : JVal)
    (base : Params) (fetch_all : Bool) (page_size : Option Nat) :
    Except WmError (List JVal) :=
  if s.use_stub || !fetch_all then
    (fetchAvailablePackages s net stub 0 base).map (fun v => [v])
  else
    fetchLoop (fetchAvailablePackages s net stub) 0 (seedParams s base page_size) 1 []
      s.max_pages

/-- The sequence of parameter maps passed to successive upstream calls by
the `fetch_all_pages` loop (same recursion as `fetchLoop`, recording the
`params` given to each fetch). -/
def paramsTrace (fetch : Nat → Params → Except WmError JVal) :
    Nat → Params → Nat → Nat → List Params
  | _, _, _, 0 => []
  | idx, params, page, fuel + 1 =>
      params ::
        match fetch idx params with
        | Except.error _ => []
        | Except.ok payload =>
            match continuation payload page with
            | ContinuationSignal.token t =>
                paramsTrace fetch (idx + 1) (insertP "next" t params) page fuel
            | ContinuationSignal.page np =>
                paramsTrace fetch (idx + 1) (insertP "page" (toString np) params) np fuel
            | ContinuationSignal.stop => []

/-! ## The `/countries` handler (`main.rs`, lines 112-169) -/

structure Country where
  code : String
  name : Option String
deriving DecidableEq

structure CountryListResponse where
  countries : List Country
  count : Nat
  source : String
deriving DecidableEq

structure CountryQuery where
  country_code : Option String
  scope : Option String
  esim_id : Option String
  fetch_all : Option Bool
  page_size : Option Nat

/-- `map_err`: error-to-HTTP-status translation. -/
def map_err : WmError → Nat × String
  | WmError.MissingToken => (500, "WM_BEARER_TOKEN is not set")
  | WmError.Http e => (502, "request error: " ++ e)
  | WmError.Upstream status body => (status, body)
  | WmError.BadJson => (502, "invalid JSON from upstream")

/-- Insert a query parameter when present. -/
def optInsert (k : String) (v : Option String) (m : Params) : Params :=
  match v with
  | some s => insertP k s m
  | none => m

/-- The filter parameters built from the query. -/
def buildParams (q : CountryQuery) : Params :=
  optInsert "esim_id" q.esim_id (optInsert "scope" q.scope
    (optInsert "country_code" q.country_code emptyP))

/-- Per-page extraction, concatenation, global dedup, sort — the body of
`get_countries` after the pages are obtained. -/
def mergeCountries (pages : List JVal) : List Pair :=
  mergePairs (pages.flatMap extract_countries)

/-- Build the response from the pages and the fail-open marker. -/
def mkResponse (s : Settings) (used_fail_open : Bool) (pages : List JVal) :
    CountryListResponse :=
  let countries := (mergeCountries pages).map (fun p => Country.mk p.1 p.2)
  let src := if s.use_stub then "stub"
    else if used_fail_open then "fail_open_stub"
    else "worldmobile"
  CountryListResponse.mk countries countries.length src

/-- `get_countries`: attempt the aggregation; on failure serve the stub if
fail-open is configured, otherwise propagate via `map_err`. -/
def get_countries (s : Settings) (net : Nat → Params → Except WmError JVal) (stub : JVal)
    (q : CountryQuery) : Except (Nat × String) CountryListResponse :=
  let params := buildParams q
  match fetch_all_pages s net stub params (q.fetch_all.getD false) q.page_size with
  | Except.ok pages => Except.ok (mkResponse s false pages)
  | Except.error e =>
      if s.fail_open then Except.ok (mkResponse s true [stub])
      else Except.error (map_err e)

/-! ## Merge analysis: the deduplicating map as a lookup function -/

/-- The code components of a candidate list. -/
def keysOf (l : List Pair) : List String := l.map (fun p => p.1)

/-- Whether some candidate carries the code `c`. -/
def hasCode (c : String) (l : List Pair) : Bool := l.any (fun p => p.1 == c)

/-- Lookup in an association list of pairs (the value of the map at `c`,
when the key is present). -/
def lookupPair (c : String) (l : List Pair) : Option (Option String) :=
  (l.find? (fun p => p.1 == c)).map (fun p => p.2)

/-- The first non-null name among the candidates carrying code `c`,
scanning in list order. -/
def firstName (c : String) (ps : List Pair) : Option String :=
  ps.findSome? (fun p => if p.1 == c then p.2 else none)

/-- How one `and_modify`/`or_insert` step combines the stored value with
an incoming name: an already-present non-null name wins, anything else is
replaced by the incoming name. -/
def mergeVal : Option (Option String) → Option String → Option String
  | some (some n), _ => some n
  | _, incoming => incoming

/-- The single global merge described by the spec: one dedup-and-sort pass
over the concatenation of all pages' raw candidates. -/
def singleMergeAllPages (pages : List JVal) : List Pair :=
  mergePairs (pages.flatMap collectPairs)

/-! ## Extraction: every emitted candidate is trimmed and non-empty -/

/-- A candidate as `push_pair`'s accept branch produces it: the code is
some trimmed non-empty string, the name (when present) is trimmed. -/
def GoodPair (p : Pair) : Prop :=
  (∃ c, p.1 = trimS c ∧ trimS c ≠ "") ∧ (p.2 = none ∨ ∃ n, p.2 = some (trimS n))

/-- The relation between the parameter maps of two consecutive upstream
calls in the loop: no key is ever removed, and the step is exactly one
insertion — of `next` (token continuation, leaving `page` untouched) or
of `page` (page-number continuation, leaving `next` untouched). -/
def paramStep (p q : Params) : Prop :=
  (∀ k, (p k).isSome = true → (q k).isSome = true) ∧
  ((∃ t, q = insertP "next" t p) ∨ (∃ s, q = insertP "page" s p))

/-! ## Continuation priority (C2) -/

/-- The token lookup as the claim words it: a known token field name,
including one nested under the metadata block — but not the `links.next`
URL, which the claim instead sends to page-number extraction. -/
def claimTokenLookup (payload : JVal) : Option String :=
  match ["next", "nextToken", "next_token", "nextPageToken"].findSome?
      (fun k => nonEmptyStr ((payload.get? k).bind JVal.asStr)) with
  | some s => some s
  | none =>
      nonEmptyStr (((payload.get? "meta").bind
        (fun m => m.get? "next_token")).bind JVal.asStr)

/-- The continuation computation exactly as the claim describes it:
token (field or meta-nested) first; else meta page counters; else a page
number extracted from the query string of the `links.next` URL; else
stop. -/
def claimedSignal (payload : JVal) (current_page : Nat) : ContinuationSignal :=
  match claimTokenLookup payload with
  | some t => ContinuationSignal.token t
  | none =>
      match metaAdvance payload current_page with
      | some np => ContinuationSignal.page np
      | none =>
          match (linksNextStr payload).bind (fun u => linkPage u) with
          | some np => ContinuationSignal.page np
          | none => ContinuationSignal.stop

theorem leChars_total (a b : List Char) : leChars a b = true ∨ leChars b a = true := by
  induction a generalizing b with
  | nil => left; rfl
  | cons x xs ih =>
      cases b with
      | nil => right; rfl
      | cons y ys =>
          by_cases hxy : x < y
          · left; simp [leChars, hxy]
          · by_cases hyx : y < x
            · right; simp [leChars, hyx, hxy]
            · rcases ih ys with h | h
              · left; simp [leChars, hxy, hyx, h]
              · right; simp [leChars, hxy, hyx, h]

theorem leChars_trans {a b c : List Char} (hab : leChars a b = true)
    (hbc : leChars b c = true) : leChars a c = true := by
  induction a generalizing b c with
  | nil => rfl
  | cons x xs ih =>
      cases b with
      | nil => simp [leChars] at hab
      | cons y ys =>
          cases c with
          | nil => simp [leChars] at hbc
          | cons z zs =>
              simp only [leChars] at hab hbc ⊢
              by_cases hxy : x < y
              · by_cases hyz : y < z
                · simp [lt_trans hxy hyz]
                · by_cases hzy : z < y
                  · simp [leChars, hyz, hzy] at hbc
                  · have hyz' : y = z := le_antisymm (not_lt.mp hzy) (not_lt.mp hyz)
                    subst hyz'
                    simp [hxy]
              · by_cases hyx : y < x
                · simp [leChars, hxy, hyx] at hab
                · have hxy' : x = y := le_antisymm (not_lt.mp hyx) (not_lt.mp hxy)
                  subst hxy'
                  by_cases hyz : x < z
                  · simp [hyz]
                  · by_cases hzy : z < x
                    · simp [leChars, hyz, hzy] at hbc
                    · simp only [leChars, if_neg hxy, if_neg hyx] at hab
                      simp only [leChars, if_neg hyz, if_neg hzy] at hbc
                      simp [hyz, hzy, ih hab hbc]

theorem leChars_antisymm {a b : List Char} (hab : leChars a b = true)
    (hba : leChars b a = true) : a = b := by
  induction a generalizing b with
  | nil =>
      cases b with
      | nil => rfl
      | cons y ys => simp [leChars] at hba
  | cons x xs ih =>
      cases b with
      | nil => simp [leChars] at hab
      | cons y ys =>
          simp only [leChars] at hab hba
          by_cases hxy : x < y
          · simp [leChars, hxy, lt_asymm hxy] at hba
          · by_cases hyx : y < x
            · simp [leChars, hxy, hyx] at hab
            · have hxy' : x = y := le_antisymm (not_lt.mp hyx) (not_lt.mp hxy)
              subst hxy'
              simp only [leChars, if_neg hxy, if_neg hyx] at hab hba
              simp at hxy
              simp [ih hab hba]

instance : IsTotal Pair pairLe := ⟨fun a b => leChars_total a.1.data b.1.data⟩

instance : IsTrans Pair pairLe := ⟨fun _ _ _ h h' => leChars_trans h h'⟩

/-- Sanity check: extraction over a typical `data` page, with trimming,
dedup and first-non-null-name selection. -/
theorem extract_countries_sample :
    extract_countries (JVal.obj [("data", JVal.arr
      [JVal.obj [("country_code", JVal.str " US ")],
       JVal.obj [("country_code", JVal.str "CA"), ("country_name", JVal.str "Canada")],
       JVal.obj [("country_code", JVal.str "US"), ("country_name", JVal.str "USA")]])]) =
    [("CA", some "Canada"), ("US", some "USA")] := by decide

/-- Sanity check: the nested `countries` list, name trimming, and the
rejection of a whitespace-only code. -/
theorem extract_countries_nested_sample :
    extract_countries (JVal.obj [("countries", JVal.arr
      [JVal.obj [("code", JVal.str "GB"), ("name", JVal.str " Britain ")],
       JVal.obj [("code", JVal.str "  ")]])]) =
    [("GB", some "Britain")] := by decide

theorem modifyStep_key (p q : Pair) : (modifyStep p q).1 = q.1 := by
  by_cases hq : (q.1 == p.1 && q.2 == none) = true
  · rw [modifyStep, if_pos hq]
  · rw [modifyStep, if_neg hq]

theorem modifyStep_of_ne (p q : Pair) (h : q.1 ≠ p.1) : modifyStep p q = q := by
  have hc : (q.1 == p.1 && q.2 == none) = false := by
    have : (q.1 == p.1) = false := beq_eq_false_iff_ne.mpr h
    rw [this, Bool.false_and]
  rw [modifyStep, if_neg (by rw [hc]; exact Bool.false_ne_true)]

theorem keysOf_insertPair (acc : List Pair) (p : Pair) :
    keysOf (insertPair acc p) =
      if acc.any (fun q => q.1 == p.1) then keysOf acc else keysOf acc ++ [p.1] := by
  by_cases h : acc.any (fun q => q.1 == p.1) = true
  · rw [insertPair, if_pos h, if_pos h, keysOf, keysOf, List.map_map]
    apply List.map_congr_left
    intro q _
    exact modifyStep_key p q
  · rw [insertPair, if_neg h, if_neg h, keysOf, keysOf, List.map_append]
    rfl

theorem nodup_keys_insertPair {acc : List Pair} (p : Pair)
    (h : (keysOf acc).Nodup) : (keysOf (insertPair acc p)).Nodup := by
  rw [keysOf_insertPair]
  by_cases hmem : acc.any (fun q => q.1 == p.1) = true
  · rw [if_pos hmem]; exact h
  · rw [if_neg hmem]
    rw [List.nodup_append]
    refine ⟨h, List.nodup_singleton _, ?_⟩
    intro a ha hb
    simp only [List.mem_singleton] at hb
    subst hb
    apply hmem
    rw [List.any_eq_true]
    rcases List.mem_map.mp ha with ⟨q, hq, hkey⟩
    exact ⟨q, hq, by simp [hkey]⟩

theorem lookupPair_insertPair (acc : List Pair) (p : Pair) (c : String) :
    lookupPair c (insertPair acc p) =
      if p.1 = c then some (mergeVal (lookupPair c acc) p.2)
      else lookupPair c acc := by
  by_cases hmem : acc.any (fun q => q.1 == p.1) = true
  · rw [insertPair, if_pos hmem]
    have hpred : ((fun q : Pair => q.1 == c) ∘ modifyStep p) = (fun q : Pair => q.1 == c) := by
      funext q
      simp [Function.comp, modifyStep_key p q]
    rw [lookupPair, List.find?_map (modifyStep p) acc, hpred]
    by_cases hpc : p.1 = c
    · subst hpc
      rcases List.any_eq_true.mp hmem with ⟨q, hqmem, hq⟩
      have hfind : ∃ r, acc.find? (fun q : Pair => q.1 == p.1) = some r := by
        rw [← Option.isSome_iff_exists, List.find?_isSome]
        exact ⟨q, hqmem, hq⟩
      rcases hfind with ⟨r, hr⟩
      have hr1 : r.1 = p.1 := by simpa using List.find?_some hr
      rw [if_pos rfl, lookupPair, hr]
      simp only [Option.map_some']
      cases hrv : r.2 with
      | none =>
          have hcond : (r.1 == p.1 && r.2 == none) = true := by
            rw [hrv]
            simp [hr1]
          have hfr : modifyStep p r = (r.1, p.2) := by rw [modifyStep, if_pos hcond]
          rw [hfr]
          rfl
      | some n =>
          have hcond : (r.1 == p.1 && r.2 == none) = false := by
            rw [hrv]
            simp
          have hfr : modifyStep p r = r := by
            rw [modifyStep, if_neg (by rw [hcond]; exact Bool.false_ne_true)]
          rw [hfr, hrv]
          rfl
    · rw [if_neg hpc, lookupPair]
      cases hr : acc.find? (fun q : Pair => q.1 == c) with
      | none => rfl
      | some r =>
          have hr1 : r.1 = c := by simpa using List.find?_some hr
          have hfr : modifyStep p r = r :=
            modifyStep_of_ne p r (by rw [hr1]; exact fun hcp => hpc hcp.symm)
          rw [Option.map_some', hfr, Option.map_some']
  · rw [insertPair, if_neg hmem]
    by_cases hpc : p.1 = c
    · subst hpc
      have hnone : acc.find? (fun q : Pair => q.1 == p.1) = none := by
        rw [List.find?_eq_none]
        intro q hq hq'
        exact hmem (List.any_eq_true.mpr ⟨q, hq, hq'⟩)
      have hlook : lookupPair p.1 acc = none := by rw [lookupPair, hnone]; rfl
      rw [if_pos rfl, lookupPair, List.find?_append, hnone, Option.none_or, hlook]
      have hself : List.find? (fun q : Pair => q.1 == p.1) [p] = some p := by
        simp [List.find?]
      rw [hself, Option.map_some']
      rfl
    · rw [if_neg hpc, lookupPair, lookupPair, List.find?_append]
      have : List.find? (fun q : Pair => q.1 == c) [p] = none := by
        have hc : (p.1 == c) = false := beq_eq_false_iff_ne.mpr hpc
        simp [List.find?, hc]
      rw [this]
      cases acc.find? (fun q : Pair => q.1 == c) with
      | none => rfl
      | some r => rfl

theorem firstName_cons_ne {c : String} {p : Pair} (ps : List Pair)
    (h : (p.1 == c) = false) : firstName c (p :: ps) = firstName c ps := by
  have hne : ¬ p.1 = c := by simpa using h
  simp [firstName, List.findSome?_cons, hne]

theorem firstName_cons_some {c : String} {p : Pair} {m : String} (ps : List Pair)
    (h : (p.1 == c) = true) (hm : p.2 = some m) : firstName c (p :: ps) = some m := by
  have heq : p.1 = c := by simpa using h
  simp [firstName, List.findSome?_cons, heq, hm]

theorem firstName_cons_none {c : String} {p : Pair} (ps : List Pair)
    (h : (p.1 == c) = true) (hm : p.2 = none) : firstName c (p :: ps) = firstName c ps := by
  have heq : p.1 = c := by simpa using h
  simp [firstName, List.findSome?_cons, heq, hm]

theorem hasCode_cons (c : String) (p : Pair) (ps : List Pair) :
    hasCode c (p :: ps) = ((p.1 == c) || hasCode c ps) := by
  rw [hasCode, List.any_cons]
  rfl

/-- The value the deduplicating fold stores at `c`, in terms of the value
already stored and the pending candidates. -/
theorem lookupPair_foldl (ps : List Pair) (acc : List Pair) (c : String) :
    lookupPair c (ps.foldl insertPair acc) =
      match lookupPair c acc with
      | some (some n) => some (some n)
      | some none => some (firstName c ps)
      | none => if hasCode c ps then some (firstName c ps) else none := by
  induction ps generalizing acc with
  | nil =>
      simp only [List.foldl_nil]
      rcases hacc : lookupPair c acc with _ | v
      · simp [hasCode]
      · cases v with
        | none => simp [firstName]
        | some n => rfl
  | cons p ps ih =>
      rw [List.foldl_cons, ih (insertPair acc p), lookupPair_insertPair acc p c]
      by_cases hpc : p.1 = c
      · have hbeq : (p.1 == c) = true := beq_iff_eq.mpr hpc
        rw [if_pos hpc, hasCode_cons, hbeq]
        rcases hacc : lookupPair c acc with _ | v
        · cases hp2 : p.2 with
          | none => simp [mergeVal, firstName_cons_none ps hbeq hp2]
          | some m => simp [mergeVal, firstName_cons_some ps hbeq hp2]
        · cases v with
          | none =>
              cases hp2 : p.2 with
              | none => simp [mergeVal, firstName_cons_none ps hbeq hp2]
              | some m => simp [mergeVal, firstName_cons_some ps hbeq hp2]
          | some n => simp [mergeVal]
      · have hbeq : (p.1 == c) = false := beq_eq_false_iff_ne.mpr hpc
        rw [if_neg hpc, hasCode_cons, hbeq, firstName_cons_ne ps hbeq]
        simp

theorem lookupPair_nil (c : String) : lookupPair c [] = none := rfl

/-- What the deduplicating map stores at each code. -/
theorem lookupPair_dedupPairs (ps : List Pair) (c : String) :
    lookupPair c (dedupPairs ps) =
      if hasCode c ps then some (firstName c ps) else none := by
  rw [dedupPairs, lookupPair_foldl ps [] c, lookupPair_nil]

theorem nodup_keys_foldl (ps : List Pair) (acc : List Pair)
    (h : (keysOf acc).Nodup) : (keysOf (ps.foldl insertPair acc)).Nodup := by
  induction ps generalizing acc with
  | nil => exact h
  | cons p ps ih => exact ih (insertPair acc p) (nodup_keys_insertPair p h)

theorem nodup_keys_dedupPairs (ps : List Pair) : (keysOf (dedupPairs ps)).Nodup :=
  nodup_keys_foldl ps [] List.nodup_nil

theorem lookupPair_cons (c : String) (p : Pair) (l : List Pair) :
    lookupPair c (p :: l) = if p.1 == c then some p.2 else lookupPair c l := by
  by_cases h : (p.1 == c) = true
  · simp [lookupPair, List.find?_cons, h]
  · have h' : (p.1 == c) = false := by simpa using h
    simp [lookupPair, List.find?_cons, h']

theorem keysOf_perm {l l' : List Pair} (h : List.Perm l l') :
    List.Perm (keysOf l) (keysOf l') := h.map _

theorem lookupPair_orderedInsert (c : String) (a : Pair) (l : List Pair)
    (h : (keysOf (a :: l)).Nodup) :
    lookupPair c (List.orderedInsert pairLe a l) = lookupPair c (a :: l) := by
  induction l with
  | nil => rfl
  | cons b t ih =>
      rw [List.orderedInsert]
      by_cases hr : pairLe a b
      · rw [if_pos hr]
      · rw [if_neg hr]
        have hab : a.1 ≠ b.1 := by
          have h' := h
          rw [keysOf, List.map_cons, List.nodup_cons] at h'
          intro hc
          exact h'.1 (by rw [hc]; exact List.mem_map.mpr ⟨b, List.mem_cons_self b t, rfl⟩)
        have htail : (keysOf (a :: t)).Nodup := by
          rw [keysOf, List.map_cons, List.nodup_cons] at h ⊢
          refine ⟨fun hc => h.1 (List.mem_cons.mpr (Or.inr hc)), ?_⟩
          have h2 := h.2
          rw [List.map_cons, List.nodup_cons] at h2
          exact h2.2
        rw [lookupPair_cons c b (List.orderedInsert pairLe a t)]
        by_cases hb : (b.1 == c) = true
        · rw [if_pos hb]
          have hac : (a.1 == c) = false := by
            have hbc : b.1 = c := by simpa using hb
            exact beq_eq_false_iff_ne.mpr (by rw [← hbc]; exact hab)
          rw [lookupPair_cons c a (b :: t), if_neg (by rw [hac]; exact Bool.false_ne_true),
            lookupPair_cons c b t, if_pos hb]
        · rw [if_neg hb, ih htail, lookupPair_cons c a (b :: t), lookupPair_cons c a t,
            lookupPair_cons c b t, if_neg hb]

theorem lookupPair_insertionSort (c : String) (l : List Pair)
    (h : (keysOf l).Nodup) :
    lookupPair c (List.insertionSort pairLe l) = lookupPair c l := by
  induction l with
  | nil => rfl
  | cons a t ih =>
      have hperm : List.Perm (List.insertionSort pairLe t) t :=
        List.perm_insertionSort pairLe t
      have hkeys : List.Perm (keysOf (List.insertionSort pairLe t)) (keysOf t) :=
        keysOf_perm hperm
      have hcons : (keysOf (a :: List.insertionSort pairLe t)).Nodup := by
        rw [keysOf, List.map_cons, List.nodup_cons]
        rw [keysOf, List.map_cons, List.nodup_cons] at h
        exact ⟨fun hc => h.1 (hkeys.mem_iff.mp hc), hkeys.nodup_iff.mpr h.2⟩
      have htail : (keysOf t).Nodup := by
        rw [keysOf, List.map_cons, List.nodup_cons] at h
        exact h.2
      rw [List.insertionSort, lookupPair_orderedInsert c a _ hcons, lookupPair_cons,
        lookupPair_cons, ih htail]

/-- The merged (dedup + sort) list, as a lookup function. -/
theorem lookupPair_mergePairs (ps : List Pair) (c : String) :
    lookupPair c (mergePairs ps) =
      if hasCode c ps then some (firstName c ps) else none := by
  rw [mergePairs, sortPairs, lookupPair_insertionSort c _ (nodup_keys_dedupPairs ps),
    lookupPair_dedupPairs]

theorem sorted_mergePairs (ps : List Pair) : List.Sorted pairLe (mergePairs ps) :=
  List.sorted_insertionSort pairLe (dedupPairs ps)

theorem nodup_keys_mergePairs (ps : List Pair) : (keysOf (mergePairs ps)).Nodup :=
  (keysOf_perm (List.perm_insertionSort pairLe (dedupPairs ps))).nodup_iff.mpr
    (nodup_keys_dedupPairs ps)

theorem mem_keys_of_lookupPair {c : String} {l : List Pair} {v : Option String}
    (h : lookupPair c l = some v) : c ∈ keysOf l := by
  rw [lookupPair] at h
  rcases hf : l.find? (fun p => p.1 == c) with _ | r
  · rw [hf] at h
    exact absurd h (by simp)
  · have hr1 : r.1 = c := by simpa using List.find?_some hf
    exact List.mem_map.mpr ⟨r, List.mem_of_find?_eq_some hf, hr1⟩

theorem lookupPair_eq_none_of_nmem {c : String} {l : List Pair}
    (h : c ∉ keysOf l) : lookupPair c l = none := by
  rw [lookupPair]
  have : l.find? (fun p => p.1 == c) = none := by
    rw [List.find?_eq_none]
    intro p hp hpc
    exact h (List.mem_map.mpr ⟨p, hp, by simpa using hpc⟩)
  rw [this]
  rfl

theorem string_eq_of_data_eq {a b : String} (h : a.data = b.data) : a = b := by
  cases a
  cases b
  exact congrArg String.mk (by simpa using h)

/-- Two lists that are sorted by code, have no duplicate codes, and agree
as lookup functions are equal. -/
theorem eq_of_sorted_lookupPair :
    ∀ (l₁ l₂ : List Pair), List.Sorted pairLe l₁ → (keysOf l₁).Nodup →
      List.Sorted pairLe l₂ → (keysOf l₂).Nodup →
      (∀ c, lookupPair c l₁ = lookupPair c l₂) → l₁ = l₂ := by
  intro l₁
  induction l₁ with
  | nil =>
      intro l₂ _ _ _ _ hl
      cases l₂ with
      | nil => rfl
      | cons b t₂ =>
          have hb := hl b.1
          rw [lookupPair_nil, lookupPair_cons, if_pos (by simp)] at hb
          exact absurd hb (by simp)
  | cons a t₁ ih =>
      intro l₂ s₁ n₁ s₂ n₂ hl
      cases l₂ with
      | nil =>
          have ha := hl a.1
          rw [lookupPair_nil, lookupPair_cons, if_pos (by simp)] at ha
          exact absurd ha (by simp)
      | cons b t₂ =>
          have hsc₁ := (List.sorted_cons.mp s₁)
          have hsc₂ := (List.sorted_cons.mp s₂)
          have hn₁ : a.1 ∉ keysOf t₁ ∧ (keysOf t₁).Nodup := by
            rw [keysOf, List.map_cons, List.nodup_cons] at n₁
            exact n₁
          have hn₂ : b.1 ∉ keysOf t₂ ∧ (keysOf t₂).Nodup := by
            rw [keysOf, List.map_cons, List.nodup_cons] at n₂
            exact n₂
          have hab : a.1 = b.1 := by
            have ha : lookupPair a.1 (b :: t₂) = some a.2 := by
              rw [← hl a.1, lookupPair_cons, if_pos (by simp)]
            have hbmem : b.1 ∈ keysOf (a :: t₁) := by
              apply mem_keys_of_lookupPair (v := b.2)
              rw [hl b.1, lookupPair_cons, if_pos (by simp)]
            have hamem : a.1 ∈ keysOf (b :: t₂) := mem_keys_of_lookupPair ha
            rw [keysOf, List.map_cons, List.mem_cons] at hamem hbmem
            rcases hamem with h1 | h1
            · exact h1
            · rcases hbmem with h2 | h2
              · exact h2.symm
              · rcases List.mem_map.mp h1 with ⟨q, hq, hq1⟩
                rcases List.mem_map.mp h2 with ⟨r, hr, hr1⟩
                have hba : leChars b.1.data a.1.data = true := by
                  have := hsc₂.1 q hq
                  rw [pairLe, hq1] at this
                  exact this
                have hab' : leChars a.1.data b.1.data = true := by
                  have := hsc₁.1 r hr
                  rw [pairLe, hr1] at this
                  exact this
                exact string_eq_of_data_eq (leChars_antisymm hab' hba)
          have hv : a.2 = b.2 := by
            have ha := hl a.1
            rw [lookupPair_cons, if_pos (by simp), lookupPair_cons,
              if_pos (by rw [hab]; simp)] at ha
            exact Option.some.inj ha
          have hhead : a = b := Prod.ext hab hv
          have htl : ∀ c, lookupPair c t₁ = lookupPair c t₂ := by
            intro c
            by_cases hc : c = a.1
            · subst hc
              rw [lookupPair_eq_none_of_nmem hn₁.1,
                lookupPair_eq_none_of_nmem (by rw [← hab] at hn₂; exact hn₂.1)]
            · have hc' : (a.1 == c) = false := beq_eq_false_iff_ne.mpr (fun h => hc h.symm)
              have hl' := hl c
              rw [lookupPair_cons, if_neg (by rw [hc']; exact Bool.false_ne_true),
                lookupPair_cons, if_neg (by rw [← hab, hc']; exact Bool.false_ne_true)] at hl'
              exact hl'
          rw [hhead, ih t₂ hsc₁.2 hn₁.2 hsc₂.2 hn₂.2 htl]

theorem hasCode_false_of_nmem {c : String} {l : List Pair}
    (h : c ∉ keysOf l) : hasCode c l = false := by
  by_contra hne
  have htrue : hasCode c l = true := by
    cases hv : hasCode c l
    · exact absurd hv hne
    · rfl
  rcases List.any_eq_true.mp htrue with ⟨x, hx, hpx⟩
  exact h (List.mem_map.mpr ⟨x, hx, by simpa using hpx⟩)

theorem lookupPair_isSome (c : String) (l : List Pair) :
    (lookupPair c l).isSome = hasCode c l := by
  by_cases h : hasCode c l = true
  · rcases List.any_eq_true.mp h with ⟨x, hx, hpx⟩
    have hs : (l.find? (fun p => p.1 == c)).isSome := List.find?_isSome.mpr ⟨x, hx, hpx⟩
    rw [lookupPair, h]
    rcases hf : l.find? (fun p => p.1 == c) with _ | r
    · rw [hf] at hs
      exact absurd hs (by simp)
    · rw [hf]
      rfl
  · have h' : hasCode c l = false := by
      cases hv : hasCode c l
      · rfl
      · exact absurd hv h
    rw [lookupPair, h']
    rcases hf : l.find? (fun p => p.1 == c) with _ | r
    · rw [hf]
      rfl
    · exact absurd (List.any_eq_true.mpr
        ⟨r, List.mem_of_find?_eq_some hf, List.find?_some hf⟩) h

theorem firstName_eq_none_of_not_hasCode {c : String} {l : List Pair}
    (h : hasCode c l = false) : firstName c l = none := by
  induction l with
  | nil => rfl
  | cons p t ih =>
      rw [hasCode_cons] at h
      have hp : (p.1 == c) = false := by
        cases hv : (p.1 == c)
        · rfl
        · rw [hv] at h
          exact absurd h (by simp)
      have ht : hasCode c t = false := by
        rw [hp] at h
        simpa using h
      rw [firstName_cons_ne t hp, ih ht]

theorem firstName_of_nodup {c : String} {l : List Pair}
    (h : (keysOf l).Nodup) : firstName c l = Option.join (lookupPair c l) := by
  induction l with
  | nil => rfl
  | cons p t ih =>
      rw [keysOf, List.map_cons, List.nodup_cons] at h
      by_cases hp : (p.1 == c) = true
      · have hpc : p.1 = c := by simpa using hp
        rw [lookupPair_cons, if_pos hp]
        cases hv : p.2 with
        | none =>
            rw [firstName_cons_none t hp hv]
            have : hasCode c t = false := hasCode_false_of_nmem (by rw [← hpc]; exact h.1)
            rw [firstName_eq_none_of_not_hasCode this]
            rfl
        | some m =>
            rw [firstName_cons_some t hp hv]
            rfl
      · have hp' : (p.1 == c) = false := by
          cases hv : (p.1 == c)
          · rfl
          · exact absurd hv hp
        rw [firstName_cons_ne t hp', lookupPair_cons,
          if_neg (by rw [hp']; exact Bool.false_ne_true), ih h.2]

theorem hasCode_mergePairs (c : String) (ps : List Pair) :
    hasCode c (mergePairs ps) = hasCode c ps := by
  rw [← lookupPair_isSome, lookupPair_mergePairs]
  by_cases h : hasCode c ps = true
  · rw [if_pos h, h]
    rfl
  · have h' : hasCode c ps = false := by
      cases hv : hasCode c ps
      · rfl
      · exact absurd hv h
    rw [h', if_neg Bool.false_ne_true]
    rfl

theorem firstName_mergePairs (c : String) (ps : List Pair) :
    firstName c (mergePairs ps) = firstName c ps := by
  rw [firstName_of_nodup (nodup_keys_mergePairs ps), lookupPair_mergePairs]
  by_cases h : hasCode c ps = true
  · rw [if_pos h]
    rfl
  · have h' : hasCode c ps = false := by
      cases hv : hasCode c ps
      · rfl
      · exact absurd hv h
    rw [if_neg h, firstName_eq_none_of_not_hasCode h']
    rfl

theorem hasCode_append (c : String) (l₁ l₂ : List Pair) :
    hasCode c (l₁ ++ l₂) = (hasCode c l₁ || hasCode c l₂) := by
  rw [hasCode, hasCode, hasCode, List.any_append]

theorem firstName_append (c : String) (l₁ l₂ : List Pair) :
    firstName c (l₁ ++ l₂) = (firstName c l₁).or (firstName c l₂) := by
  rw [firstName, firstName, firstName, List.findSome?_append]

theorem extract_countries_eq (p : JVal) :
    extract_countries p = mergePairs (collectPairs p) := rfl

theorem hasCode_firstName_flatMap (c : String) (pages : List JVal) :
    hasCode c (pages.flatMap extract_countries) = hasCode c (pages.flatMap collectPairs) ∧
    firstName c (pages.flatMap extract_countries) = firstName c (pages.flatMap collectPairs) := by
  induction pages with
  | nil => exact ⟨rfl, rfl⟩
  | cons p rest ih =>
      rw [List.flatMap_cons, List.flatMap_cons, hasCode_append, hasCode_append,
        firstName_append, firstName_append, ih.1, ih.2, extract_countries_eq,
        hasCode_mergePairs, firstName_mergePairs]
      exact ⟨rfl, rfl⟩

/-- Claim C3: the per-page dedup/sort performed inside `extract_countries`
followed by the global dedup/sort of `get_countries` produces exactly the
single global merge over all raw candidates. -/
theorem mergeCountries_eq_singleMerge (pages : List JVal) :
    mergeCountries pages = singleMergeAllPages pages := by
  apply eq_of_sorted_lookupPair _ _ (sorted_mergePairs _) (nodup_keys_mergePairs _)
    (sorted_mergePairs _) (nodup_keys_mergePairs _)
  intro c
  show lookupPair c (mergePairs (pages.flatMap extract_countries)) =
    lookupPair c (mergePairs (pages.flatMap collectPairs))
  rw [lookupPair_mergePairs, lookupPair_mergePairs,
    (hasCode_firstName_flatMap c pages).1, (hasCode_firstName_flatMap c pages).2]

/-- Claim C4: at every code, the merged result stores the first non-null name
encountered while scanning the candidates in their original order
(`firstName`); codes with no candidate are absent.  In particular a later
non-null name never overrides an earlier one and a later null never
clears one.  The two conjuncts at the end are the spec's concrete
precedence examples. -/
theorem merge_first_non_null_name_wins :
    (∀ (ps : List Pair) (c : String),
      lookupPair c (mergePairs ps) =
        if hasCode c ps then some (firstName c ps) else none) ∧
    mergePairs [("US", none), ("US", some "United States")] =
      [("US", some "United States")] ∧
    mergePairs [("US", some "United States"), ("US", none)] =
      [("US", some "United States")] :=
  ⟨fun ps c => lookupPair_mergePairs ps c, by decide, by decide⟩

/-- Claim C5: every merged list is sorted ascending by code under the byte-wise
string order and carries each code exactly once; the comparison does no
case folding, so "us" and "US" stay distinct entries. -/
theorem merge_sorted_unique_case_sensitive :
    (∀ pages : List JVal,
      List.Sorted pairLe (mergeCountries pages) ∧ (keysOf (mergeCountries pages)).Nodup) ∧
    (∀ ps : List Pair,
      List.Sorted pairLe (mergePairs ps) ∧ (keysOf (mergePairs ps)).Nodup) ∧
    mergePairs [("us", none), ("US", some "United States")] =
      [("US", some "United States"), ("us", none)] := by
  refine ⟨fun pages => ⟨?_, ?_⟩, fun ps => ⟨sorted_mergePairs ps, nodup_keys_mergePairs ps⟩, by decide⟩
  · show List.Sorted pairLe (mergePairs (pages.flatMap extract_countries))
    exact sorted_mergePairs _
  · show (keysOf (mergePairs (pages.flatMap extract_countries))).Nodup
    exact nodup_keys_mergePairs _

theorem mem_push_pair {v : List Pair} {code name : Option String} {p : Pair}
    (h : p ∈ push_pair v code name) : p ∈ v ∨ GoodPair p := by
  cases code with
  | none => exact Or.inl h
  | some c =>
      rw [push_pair] at h
      by_cases hc : trimS c = ""
      · rw [if_pos hc] at h
        exact Or.inl h
      · rw [if_neg hc] at h
        rcases List.mem_append.mp h with h' | h'
        · exact Or.inl h'
        · right
          rw [List.mem_singleton] at h'
          subst h'
          refine ⟨⟨c, rfl, hc⟩, ?_⟩
          cases name with
          | none => exact Or.inl rfl
          | some n => exact Or.inr ⟨n, rfl⟩

theorem mem_subEntry {out : List Pair} {sub : JVal} {p : Pair}
    (h : p ∈ subEntry out sub) : p ∈ out ∨ GoodPair p := by
  rw [subEntry] at h
  split at h
  · exact mem_push_pair h
  · exact Or.inl h

theorem mem_foldl_accum {α : Type} (f : List Pair → α → List Pair)
    (hf : ∀ (acc : List Pair) (x : α) (p : Pair), p ∈ f acc x → p ∈ acc ∨ GoodPair p) :
    ∀ (l : List α) (acc : List Pair) (p : Pair),
      p ∈ l.foldl f acc → p ∈ acc ∨ GoodPair p := by
  intro l
  induction l with
  | nil =>
      intro acc p h
      exact Or.inl h
  | cons x t ih =>
      intro acc p h
      rw [List.foldl_cons] at h
      rcases ih (f acc x) p h with h' | h'
      · exact hf acc x p h'
      · exact Or.inr h'

theorem mem_nestedList {fields : List (String × JVal)} {out : List Pair} {lk : String}
    {p : Pair} (h : p ∈ nestedList fields out lk) : p ∈ out ∨ GoodPair p := by
  rw [nestedList] at h
  split at h
  · exact mem_foldl_accum subEntry (fun acc x q hq => mem_subEntry hq) _ out p h
  · exact Or.inl h

theorem mem_normalize_entry {entry : JVal} {out : List Pair} {p : Pair}
    (h : p ∈ normalize_entry entry out) : p ∈ out ∨ GoodPair p := by
  rw [normalize_entry] at h
  split at h
  · rename_i fields heq
    rcases mem_foldl_accum (nestedList fields)
      (fun acc x q hq => mem_nestedList hq) _ _ p h with h' | h'
    · exact mem_push_pair h'
    · exact Or.inr h'
  · exact Or.inl h

theorem mem_collectPairs {payload : JVal} {p : Pair}
    (h : p ∈ collectPairs payload) : GoodPair p := by
  cases payload with
  | arr xs =>
      rw [collectPairs] at h
      rcases mem_foldl_accum (fun acc item => normalize_entry item acc)
        (fun acc x q hq => mem_normalize_entry hq) xs [] p h with h' | h'
      · exact absurd h' (List.not_mem_nil p)
      · exact h'
  | obj fields =>
      rw [collectPairs] at h
      rcases mem_normalize_entry h with h' | h'
      · rcases mem_foldl_accum
          (fun acc k =>
            match ((JVal.obj fields).get? k).bind JVal.asArr with
            | some a => a.foldl (fun b item => normalize_entry item b) acc
            | none => acc)
          (fun acc k q hq => by
            have hq' : q ∈
                match ((JVal.obj fields).get? k).bind JVal.asArr with
                | some a => a.foldl (fun b item => normalize_entry item b) acc
                | none => acc := hq
            split at hq'
            · exact mem_foldl_accum (fun b item => normalize_entry item b)
                (fun b x r hr => mem_normalize_entry hr) _ acc q hq'
            · exact Or.inl hq')
          _ _ p h' with h'' | h''
        · exact absurd h'' (List.not_mem_nil p)
        · exact h''
      · exact h'
  | null => exact absurd h (List.not_mem_nil p)
  | bool b => exact absurd h (List.not_mem_nil p)
  | num n => exact absurd h (List.not_mem_nil p)
  | str s => exact absurd h (List.not_mem_nil p)

/-- Claim C9: every candidate emitted by extraction has a code that is the
trimmed form of some string and is non-empty after trimming, and a name
that is absent or trimmed; a code that trims to empty is rejected by
`push_pair`, and no candidate is emitted when no code was found. -/
theorem extraction_trims_and_rejects_empty :
    (∀ (payload : JVal) (p : Pair), p ∈ collectPairs payload →
      (∃ c, p.1 = trimS c ∧ trimS c ≠ "") ∧
      (p.2 = none ∨ ∃ n, p.2 = some (trimS n))) ∧
    (∀ (v : List Pair) (c : String) (name : Option String), trimS c = "" →
      push_pair v (some c) name = v) ∧
    (∀ (v : List Pair) (name : Option String), push_pair v none name = v) := by
  refine ⟨fun payload p h => mem_collectPairs h, fun v c name hc => ?_, fun v name => rfl⟩
  rw [push_pair, if_pos hc]

/-- Witness for C9 at a concrete page: `" US "` is emitted as `"US"`, and
a whitespace-only code is rejected. -/
theorem extraction_trims_witness :
    (("US", (none : Option String)) ∈
      collectPairs (JVal.obj [("country_code", JVal.str " US ")])) ∧
    ((∃ c, "US" = trimS c ∧ trimS c ≠ "") ∧
      ((none : Option String) = none ∨ ∃ n, (none : Option String) = some (trimS n))) ∧
    push_pair [] (some "  ") none = [] :=
  ⟨by decide,
   extraction_trims_and_rejects_empty.1
     (JVal.obj [("country_code", JVal.str " US ")]) ("US", none) (by decide),
   extraction_trims_and_rejects_empty.2.1 [] "  " none (by decide)⟩

/-! ## Pagination claims -/

/-- Claim C8: with stub mode on or `fetch_all` off, the driver performs exactly
one fetch (call index 0, the unmodified base parameters) and returns the
one-page sequence, whatever continuation signals the page carries. -/
theorem single_fetch_when_not_fetch_all (s : Settings)
    (net : Nat → Params → Except WmError JVal) (stub : JVal) (base : Params)
    (fetch_all : Bool) (page_size : Option Nat)
    (h : s.use_stub = true ∨ fetch_all = false) :
    fetch_all_pages s net stub base fetch_all page_size =
      (fetchAvailablePackages s net stub 0 base).map (fun v => [v]) := by
  have hcond : (s.use_stub || !fetch_all) = true := by
    rcases h with h | h
    · rw [h, Bool.true_or]
    · rw [h]
      simp
  rw [fetch_all_pages, if_pos hcond]

/-- Witness for C8: `fetch_all = false`, one page that carries a `next`
token; the driver still returns just that page. -/
theorem single_fetch_witness :
    fetch_all_pages (Settings.mk "u" (some "t") false 100 20 100 true)
      (fun _ _ => Except.ok (JVal.obj [("next", JVal.str "T")])) (JVal.obj []) emptyP
      false none =
      Except.ok [JVal.obj [("next", JVal.str "T")]] := by
  rw [single_fetch_when_not_fetch_all _ _ _ _ _ _ (Or.inr rfl)]
  rfl

/-- Claim C6: a failing fetch at any point of the loop (any accumulated pages,
any parameter state, any remaining fuel) makes the whole traversal return
exactly that failure, discarding the accumulated pages; in particular a
first-page failure makes `fetch_all_pages` fail. -/
theorem fetch_failure_aborts :
    (∀ (fetch : Nat → Params → Except WmError JVal) (idx : Nat) (params : Params)
      (page : Nat) (acc : List JVal) (fuel : Nat) (e : WmError),
      fetch idx params = Except.error e →
      fetchLoop fetch idx params page acc (fuel + 1) = Except.error e) ∧
    (∀ (s : Settings) (net : Nat → Params → Except WmError JVal) (stub : JVal)
      (base : Params) (page_size : Option Nat) (e : WmError),
      s.use_stub = false → 0 < s.max_pages →
      fetchAvailablePackages s net stub 0 (seedParams s base page_size) = Except.error e →
      fetch_all_pages s net stub base true page_size = Except.error e) := by
  constructor
  · intro fetch idx params page acc fuel e h
    rw [fetchLoop, h]
  · intro s net stub base page_size e h1 h2 h3
    have hcond : (s.use_stub || !true) = false := by
      rw [h1]
      rfl
    rw [fetch_all_pages, if_neg (by rw [hcond]; exact Bool.false_ne_true)]
    cases hm : s.max_pages with
    | zero => exact absurd hm (by omega)
    | succ m => rw [fetchLoop, h3]

/-- Witness for C6: the loop discards a non-empty accumulator on failure,
and a missing bearer token fails the whole `fetch_all` traversal. -/
theorem fetch_failure_aborts_witness :
    fetchLoop (fun _ _ => Except.error WmError.BadJson) 0 emptyP 1 [JVal.null] 5 =
      Except.error WmError.BadJson ∧
    fetch_all_pages (Settings.mk "u" none false 100 20 100 true)
      (fun _ _ => Except.ok JVal.null) JVal.null emptyP true none =
      Except.error WmError.MissingToken :=
  ⟨fetch_failure_aborts.1 _ 0 emptyP 1 [JVal.null] 4 WmError.BadJson rfl,
   fetch_failure_aborts.2 (Settings.mk "u" none false 100 20 100 true) _ _ _ _
     WmError.MissingToken rfl (by decide) rfl⟩

theorem fetchLoop_success (fetch : Nat → Params → Except WmError JVal)
    (hsucc : ∀ i p, ∃ v, fetch i p = Except.ok v) :
    ∀ (fuel idx : Nat) (params : Params) (page : Nat) (acc : List JVal),
      ∃ pages, fetchLoop fetch idx params page acc fuel = Except.ok pages ∧
        pages.length ≤ acc.length + fuel ∧
        (pages.length < acc.length + fuel →
          ∃ last cp, pages.getLast? = some last ∧
            continuation last cp = ContinuationSignal.stop) := by
  intro fuel
  induction fuel with
  | zero =>
      intro idx params page acc
      refine ⟨acc, rfl, by omega, ?_⟩
      intro hlt
      omega
  | succ fuel ih =>
      intro idx params page acc
      obtain ⟨v, hv⟩ := hsucc idx params
      cases hc : continuation v page with
      | token t =>
          obtain ⟨pages, hp, hlen, hlast⟩ :=
            ih (idx + 1) (insertP "next" t params) page (acc ++ [v])
          have hl1 : (acc ++ [v]).length = acc.length + 1 := by simp
          rw [hl1] at hlen hlast
          refine ⟨pages, ?_, by omega, fun hlt => hlast (by omega)⟩
          rw [fetchLoop]
          simp only [hv, hc]
          exact hp
      | page np =>
          obtain ⟨pages, hp, hlen, hlast⟩ :=
            ih (idx + 1) (insertP "page" (toString np) params) np (acc ++ [v])
          have hl1 : (acc ++ [v]).length = acc.length + 1 := by simp
          rw [hl1] at hlen hlast
          refine ⟨pages, ?_, by omega, fun hlt => hlast (by omega)⟩
          rw [fetchLoop]
          simp only [hv, hc]
          exact hp
      | stop =>
          have hl1 : (acc ++ [v]).length = acc.length + 1 := by simp
          refine ⟨acc ++ [v], ?_, by rw [hl1]; omega, ?_⟩
          · rw [fetchLoop]
            simp only [hv, hc]
          · intro _
            exact ⟨v, page, List.getLast?_concat acc, hc⟩

/-- Claim C7: when every upstream call succeeds, the `fetch_all` traversal
returns successfully with at most `max_pages` pages; if it stopped before
the cap, the last page carried no continuation signal.  Hitting the cap
raises no error (the result is `ok` either way), and the result type
carries no truncation marker at all. -/
theorem fetch_all_success_terminates (s : Settings)
    (net : Nat → Params → Except WmError JVal) (stub : JVal) (base : Params)
    (page_size : Option Nat) (h1 : s.use_stub = false)
    (hsucc : ∀ i p, ∃ v, fetchAvailablePackages s net stub i p = Except.ok v) :
    ∃ pages, fetch_all_pages s net stub base true page_size = Except.ok pages ∧
      pages.length ≤ s.max_pages ∧
      (pages.length < s.max_pages →
        ∃ last cp, pages.getLast? = some last ∧
          continuation last cp = ContinuationSignal.stop) := by
  have hcond : (s.use_stub || !true) = false := by
    rw [h1]
    rfl
  rw [fetch_all_pages, if_neg (by rw [hcond]; exact Bool.false_ne_true)]
  obtain ⟨pages, hp, hlen, hlast⟩ :=
    fetchLoop_success (fetchAvailablePackages s net stub) hsucc s.max_pages 0
      (seedParams s base page_size) 1 []
  exact ⟨pages, hp, by simpa using hlen, fun hlt => hlast (by simpa using hlt)⟩

/-- Witness for C7: a single successful page with no continuation signal
terminates with one page, below the cap of 20, and that page's signal is
`stop`. -/
theorem fetch_all_success_witness :
    ∃ pages, fetch_all_pages (Settings.mk "u" (some "t") false 100 20 100 true)
        (fun _ _ => Except.ok (JVal.obj [])) JVal.null emptyP true none =
        Except.ok pages ∧
      pages.length ≤ 20 ∧
      (pages.length < 20 →
        ∃ last cp, pages.getLast? = some last ∧
          continuation last cp = ContinuationSignal.stop) :=
  fetch_all_success_terminates _ _ _ _ _ rfl (fun _ _ => ⟨JVal.obj [], rfl⟩)

theorem insertP_isSome (k k' v : String) (p : Params)
    (h : (p k).isSome = true) : ((insertP k' v p) k).isSome = true := by
  rw [insertP]
  by_cases hk : k = k'
  · rw [if_pos hk]
    rfl
  · rw [if_neg hk]
    exact h

theorem insertP_ne (k k' v : String) (p : Params) (h : k ≠ k') :
    (insertP k' v p) k = p k := by
  rw [insertP, if_neg h]

theorem paramsTrace_head (fetch : Nat → Params → Except WmError JVal) (idx : Nat)
    (params : Params) (page fuel : Nat) :
    (paramsTrace fetch idx params page fuel).head? = some params ∨
    paramsTrace fetch idx params page fuel = [] := by
  cases fuel with
  | zero => exact Or.inr rfl
  | succ fuel => exact Or.inl rfl

theorem paramStep_insert_next (p : Params) (t : String) :
    paramStep p (insertP "next" t p) :=
  ⟨fun k hk => insertP_isSome k "next" t p hk, Or.inl ⟨t, rfl⟩⟩

theorem paramStep_insert_page (p : Params) (s : String) :
    paramStep p (insertP "page" s p) :=
  ⟨fun k hk => insertP_isSome k "page" s p hk, Or.inr ⟨s, rfl⟩⟩

/-- Claim C10: along every traversal, consecutive parameter maps are related by
`paramStep` — parameters once inserted are never removed, a token step
only (re)writes `next` so `page` stays unchanged, and a page step only
(re)writes `page` so `next` stays unchanged; the loop seeds `page = 1`. -/
theorem params_never_removed :
    (∀ (fetch : Nat → Params → Except WmError JVal) (fuel idx page : Nat) (params : Params),
      List.Chain' paramStep (paramsTrace fetch idx params page fuel)) ∧
    (∀ p q : Params, paramStep p q →
      (∀ k, (p k).isSome = true → (q k).isSome = true) ∧
      (q "next" ≠ p "next" → q "page" = p "page") ∧
      (q "page" ≠ p "page" → q "next" = p "next")) ∧
    (∀ (s : Settings) (base : Params) (psz : Option Nat),
      seedParams s base psz "page" = some "1" ∧
      seedParams s base psz "page_size" = some (toString (psz.getD s.default_page_size))) := by
  refine ⟨?_, ?_, ?_⟩
  · intro fetch fuel
    induction fuel with
    | zero =>
        intro idx page params
        exact List.chain'_nil
    | succ fuel ih =>
        intro idx page params
        cases hf : fetch idx params with
        | error e =>
            have : paramsTrace fetch idx params page (fuel + 1) = [params] := by
              rw [paramsTrace]
              simp only [hf]
            rw [this]
            exact List.chain'_singleton params
        | ok payload =>
            cases hc : continuation payload page with
            | token t =>
                have htr : paramsTrace fetch idx params page (fuel + 1) =
                    params :: paramsTrace fetch (idx + 1) (insertP "next" t params) page fuel := by
                  rw [paramsTrace]
                  simp only [hf, hc]
                rw [htr]
                apply List.chain'_cons'.mpr
                refine ⟨?_, ih (idx + 1) page (insertP "next" t params)⟩
                intro b hb
                rcases paramsTrace_head fetch (idx + 1) (insertP "next" t params) page fuel
                  with hh | hh
                · rw [hh] at hb
                  have hb' : b = insertP "next" t params := by
                    have := hb
                    simp only [Option.mem_def, Option.some.injEq] at this
                    exact this.symm
                  rw [hb']
                  exact paramStep_insert_next params t
                · rw [hh] at hb
                  exact absurd hb (by simp)
            | page np =>
                have htr : paramsTrace fetch idx params page (fuel + 1) =
                    params :: paramsTrace fetch (idx + 1)
                      (insertP "page" (toString np) params) np fuel := by
                  rw [paramsTrace]
                  simp only [hf, hc]
                rw [htr]
                apply List.chain'_cons'.mpr
                refine ⟨?_, ih (idx + 1) np (insertP "page" (toString np) params)⟩
                intro b hb
                rcases paramsTrace_head fetch (idx + 1) (insertP "page" (toString np) params)
                  np fuel with hh | hh
                · rw [hh] at hb
                  have hb' : b = insertP "page" (toString np) params := by
                    have := hb
                    simp only [Option.mem_def, Option.some.injEq] at this
                    exact this.symm
                  rw [hb']
                  exact paramStep_insert_page params (toString np)
                · rw [hh] at hb
                  exact absurd hb (by simp)
            | stop =>
                have : paramsTrace fetch idx params page (fuel + 1) = [params] := by
                  rw [paramsTrace]
                  simp only [hf, hc]
                rw [this]
                exact List.chain'_singleton params
  · intro p q h
    refine ⟨h.1, ?_, ?_⟩
    · intro hne
      rcases h.2 with ⟨t, hq⟩ | ⟨s, hq⟩
      · rw [hq]
        exact insertP_ne "page" "next" t p (by decide)
      · exact absurd (by rw [hq]; exact insertP_ne "next" "page" s p (by decide)) hne
    · intro hne
      rcases h.2 with ⟨t, hq⟩ | ⟨s, hq⟩
      · exact absurd (by rw [hq]; exact insertP_ne "page" "next" t p (by decide)) hne
      · rw [hq]
        exact insertP_ne "next" "page" s p (by decide)
  · intro s base psz
    constructor
    · rw [seedParams, insertP_ne "page" "page_size" _ _ (by decide), insertP]
      rfl
    · rw [seedParams, insertP]
      rfl

/-- Witness for C10: a concrete token step keeps `page` unchanged and a
concrete two-call trace satisfies the chain invariant. -/
theorem params_never_removed_witness :
    ((insertP "next" "T" (insertP "page" "1" emptyP)) "page" =
      (insertP "page" "1" emptyP) "page") ∧
    List.Chain' paramStep (paramsTrace
      (fun _ _ => Except.ok (JVal.obj [("next", JVal.str "T")])) 0
      (insertP "page" "1" emptyP) 1 2) := by
  constructor
  · exact ((params_never_removed.2.1 (insertP "page" "1" emptyP)
      (insertP "next" "T" (insertP "page" "1" emptyP))
      (paramStep_insert_next (insertP "page" "1" emptyP) "T")).2.1
      (by rw [insertP_ne "next" "page" "1" emptyP (by decide), insertP]; simp [emptyP]))
  · exact params_never_removed.1 _ 2 0 1 (insertP "page" "1" emptyP)

/-! ## Fail-open and MissingCredential -/

theorem fetchAvailablePackages_missing (s : Settings)
    (net : Nat → Params → Except WmError JVal) (stub : JVal) (idx : Nat) (params : Params)
    (h1 : s.use_stub = false) (h2 : s.bearer_token = none) :
    fetchAvailablePackages s net stub idx params = Except.error WmError.MissingToken := by
  rw [fetchAvailablePackages, if_neg (by rw [h1]; exact Bool.false_ne_true), h2]

theorem fetch_all_pages_missing (s : Settings)
    (net : Nat → Params → Except WmError JVal) (stub : JVal) (base : Params)
    (fetch_all : Bool) (page_size : Option Nat)
    (h1 : s.use_stub = false) (h2 : s.bearer_token = none) (h3 : 0 < s.max_pages) :
    fetch_all_pages s net stub base fetch_all page_size =
      Except.error WmError.MissingToken := by
  cases fetch_all with
  | false =>
      rw [single_fetch_when_not_fetch_all s net stub base false page_size (Or.inr rfl),
        fetchAvailablePackages_missing s net stub 0 base h1 h2]
      rfl
  | true =>
      exact fetch_failure_aborts.2 s net stub base page_size WmError.MissingToken h1 h3
        (fetchAvailablePackages_missing s net stub 0 _ h1 h2)

/-- Counterexample to C1: bearer token absent, fail-open enabled — the
handler does NOT propagate the `MissingToken` failure as a 500; it
substitutes the canned stub and answers 200 with source
`fail_open_stub`, exactly like the other failure kinds. -/
theorem missing_credential_fail_open_counterexample :
    get_countries (Settings.mk "u" none false 100 20 100 true)
      (fun _ _ => Except.error WmError.BadJson) (JVal.obj [])
      (CountryQuery.mk none none none none none) =
      Except.ok (CountryListResponse.mk [] 0 "fail_open_stub") := rfl

/-- Claim C1, amended: a `MissingToken` failure is treated like every other
failure kind — substituted by the stub when fail-open is on (source
`fail_open_stub`), and propagated as status 500 only when fail-open is
off. -/
theorem missing_credential_amended (s : Settings)
    (net : Nat → Params → Except WmError JVal) (stub : JVal) (q : CountryQuery)
    (h1 : s.use_stub = false) (h2 : s.bearer_token = none) (h3 : 0 < s.max_pages) :
    (s.fail_open = true → ∃ r, get_countries s net stub q = Except.ok r ∧
      r.source = "fail_open_stub") ∧
    (s.fail_open = false →
      get_countries s net stub q = Except.error (500, "WM_BEARER_TOKEN is not set")) := by
  have hfp : fetch_all_pages s net stub (buildParams q) (q.fetch_all.getD false) q.page_size =
      Except.error WmError.MissingToken :=
    fetch_all_pages_missing s net stub (buildParams q) _ q.page_size h1 h2 h3
  constructor
  · intro hopen
    refine ⟨mkResponse s true [stub], ?_, ?_⟩
    · rw [get_countries]
      simp only [hfp, hopen]
      rfl
    · rw [mkResponse]
      simp only [h1]
      rfl
  · intro hclosed
    rw [get_countries]
    simp only [hfp, hclosed]
    rfl

/-- Witness for C1's amended statement: with fail-open off the missing
credential surfaces as status 500 on the `fetch_all` path. -/
theorem missing_credential_amended_witness :
    get_countries (Settings.mk "u" none false 100 20 100 false)
      (fun _ _ => Except.error WmError.BadJson) (JVal.obj [])
      (CountryQuery.mk none none none (some true) none) =
      Except.error (500, "WM_BEARER_TOKEN is not set") :=
  (missing_credential_amended (Settings.mk "u" none false 100 20 100 false) _ _ _
    rfl rfl (by decide)).2 rfl

/-- Counterexample to C2: a page whose only continuation datum is
`links.next = "u?page=3"`.  The claim's priority extracts page 3 and uses
it as the page parameter; the code instead consumes the whole URL as a
continuation token (and so never reaches the extraction, although
`next_page_number` alone would have produced 3). -/
theorem continuation_priority_counterexample :
    claimedSignal (JVal.obj [("links", JVal.obj [("next", JVal.str "u?page=3")])]) 1 =
      ContinuationSignal.page 3 ∧
    continuation (JVal.obj [("links", JVal.obj [("next", JVal.str "u?page=3")])]) 1 =
      ContinuationSignal.token "u?page=3" ∧
    next_page_number (JVal.obj [("links", JVal.obj [("next", JVal.str "u?page=3")])]) 1 =
      some 3 :=
  ⟨by decide, by decide, by decide⟩

theorem next_token_none_links {payload : JVal} (h : next_token payload = none) :
    nonEmptyStr (linksNextStr payload) = none := by
  rw [next_token] at h
  split at h
  · exact absurd h (by simp)
  · split at h
    · exact absurd h (by simp)
    · exact h

theorem nonEmptyStr_some_none {s : String} (h : nonEmptyStr (some s) = none) : s = "" := by
  rw [nonEmptyStr] at h
  by_cases hs : s = ""
  · exact hs
  · rw [Option.bind] at h
    simp only [if_neg hs] at h
    exact absurd h (by simp)

theorem linkPage_empty : linkPage "" = none := rfl

/-- Claim C2, amended: the code's priority is token first — where a non-empty
`links.next` string itself counts as a token — then the meta page
counters, then the numeric `next_page` field.  The page-number extraction
from the `links.next` query string is unreachable whenever no token was
found, so continuation never uses an extracted link page number. -/
theorem continuation_priority_amended :
    (∀ (payload : JVal) (cp : Nat) (t : String), next_token payload = some t →
      continuation payload cp = ContinuationSignal.token t) ∧
    (∀ (payload : JVal) (cp : Nat) (p : Nat), metaAdvance payload cp = some p →
      next_page_number payload cp = some p) ∧
    (∀ (payload : JVal) (cp : Nat), next_token payload = none →
      metaAdvance payload cp = none →
      next_page_number payload cp = nextPageField payload) ∧
    (∀ (payload : JVal) (cp : Nat), next_token payload = none →
      metaAdvance payload cp = none → nextPageField payload = none →
      continuation payload cp = ContinuationSignal.stop) := by
  have hlinksdead : ∀ (payload : JVal) (cp : Nat), next_token payload = none →
      metaAdvance payload cp = none →
      next_page_number payload cp = nextPageField payload := by
    intro payload cp htok hmeta
    have hlinks := next_token_none_links htok
    cases hnf : nextPageField payload with
    | some np =>
        rw [next_page_number]
        simp only [hmeta, hnf]
    | none =>
        rw [next_page_number]
        simp only [hmeta, hnf]
        cases hL : linksNextStr payload with
        | none => simp only [hL]
        | some u =>
            rw [hL] at hlinks
            have hu : u = "" := nonEmptyStr_some_none hlinks
            simp only [hL, hu, linkPage_empty]
  refine ⟨?_, ?_, hlinksdead, ?_⟩
  · intro payload cp t h
    rw [continuation]
    simp only [h]
  · intro payload cp p h
    rw [next_page_number]
    simp only [h]
  · intro payload cp htok hmeta hnf
    rw [continuation]
    simp only [htok, hlinksdead payload cp htok hmeta, hnf]

/-- Witness for C2's amended statement: with both a token and page
counters present, the token wins. -/
theorem continuation_priority_witness :
    continuation (JVal.obj [("next", JVal.str "T"),
      ("meta", JVal.obj [("page", JVal.num 1), ("total_pages", JVal.num 5)])]) 1 =
      ContinuationSignal.token "T" :=
  continuation_priority_amended.1 _ 1 "T" (by decide)
